import Mathlib

/-!
Verification of the typing-video frame pipeline of `script.js`.

Shallow embedding conventions:
* JS strings are `List Char`; `String.prototype.split(' ')` is `splitWords`,
  `Array.prototype.join(' ')` over lines is `joinWords`, `slice(0, e)` is `jsSliceTo`.
* JS numbers are modelled exactly: frame counts and font sizes as `ℕ`,
  the running character counters of the frame loop as `ℤ` (JS integers),
  and pixel widths/heights and the fractional `progress` as `ℚ`
  (IEEE-754 rounding is abstracted to exact rational arithmetic).
* The canvas text measurer (`ctx.measureText(...).width` under
  `ctx.font = fontSize + "px Arial"`) is an abstract parameter
  `measure : ℕ → List Char → ℚ` (font size, string, width).
-/

namespace TypeTrance

/-- Embedding of `text.split(' ')` (src/script.js:39): split on every single
space character; consecutive spaces yield empty words, and the result is
always non-empty. -/
def splitWords : List Char → List (List Char)
  | [] => [[]]
  | c :: cs =>
    match splitWords cs with
    | [] => [[]]
    | w :: ws => if c = ' ' then [] :: w :: ws else (c :: w) :: ws

/-- Joining a list of lines back together with single spaces
(`lines.join(' ')`); used to state the wrap round-trip property. -/
def joinWords : List (List Char) → List Char
  | [] => []
  | w :: ws => w ++ ws.flatMap (fun x => ' ' :: x)

/-- The loop of `wrapText` (src/script.js:43-53): greedily extend
`currentLine` with the next word while `measure(currentLine + " " + word) <
maxWidth`, otherwise close the current line and start a new one with the
word; finally push the last current line. -/
def wrapGo (measure : List Char → ℚ) (maxWidth : ℚ) :
    List Char → List (List Char) → List (List Char)
  | currentLine, [] => [currentLine]
  | currentLine, word :: rest =>
    if measure (currentLine ++ ' ' :: word) < maxWidth then
      wrapGo measure maxWidth (currentLine ++ ' ' :: word) rest
    else
      currentLine :: wrapGo measure maxWidth word rest

/-- Embedding of `wrapText(ctx, text, maxWidth)` (src/script.js:38-55):
split into words, seed `currentLine` with `words[0]`, then run the greedy
loop over the remaining words.  `splitWords` never returns `[]`, so the
first match arm is unreachable. -/
def wrapText (measure : List Char → ℚ) (text : List Char) (maxWidth : ℚ) :
    List (List Char) :=
  match splitWords text with
  | [] => []
  | w :: ws => wrapGo measure maxWidth w ws

/-- The record returned by `optimizeLayout` (src/script.js:69,78):
`{ fontSize, lines, lineHeight }`. -/
structure Layout where
  fontSize : ℕ
  lines : List (List Char)
  lineHeight : ℚ
deriving DecidableEq

/-- The fitting condition tested by `optimizeLayout` at a candidate font
size (src/script.js:64-68): the wrapped lines at this size, at line height
`fontSize * 1.2`, have total height at most `maxHeight`. -/
def fitsAt (measure : ℕ → List Char → ℚ) (text : List Char)
    (maxWidth maxHeight : ℚ) (fontSize : ℕ) : Prop :=
  ((wrapText (measure fontSize) text maxWidth).length : ℚ) *
    ((fontSize : ℚ) * 1.2) ≤ maxHeight

instance (measure : ℕ → List Char → ℚ) (text : List Char)
    (maxWidth maxHeight : ℚ) (fontSize : ℕ) :
    Decidable (fitsAt measure text maxWidth maxHeight fontSize) := by
  unfold fitsAt; infer_instance

/-- One iteration body of the `optimizeLayout` search loop
(src/script.js:62-70): wrap at this font size and return the layout if the
total height fits, else nothing. -/
def tryFontSize (measure : ℕ → List Char → ℚ) (text : List Char)
    (maxWidth maxHeight : ℚ) (fontSize : ℕ) : Option Layout :=
  if ((wrapText (measure fontSize) text maxWidth).length : ℚ) *
      ((fontSize : ℚ) * 1.2) ≤ maxHeight then
    some ⟨fontSize, wrapText (measure fontSize) text maxWidth, (fontSize : ℚ) * 1.2⟩
  else none

/-- The `while (fontSize >= minFontSize)` loop of `optimizeLayout`
(src/script.js:62-73), descending from the given font size; `none` means the
loop exited without finding a fitting size. -/
def optimizeGo (measure : ℕ → List Char → ℚ) (text : List Char)
    (maxWidth maxHeight : ℚ) (minFontSize : ℕ) : ℕ → Option Layout
  | 0 =>
    if 0 < minFontSize then none
    else tryFontSize measure text maxWidth maxHeight 0
  | n + 1 =>
    if n + 1 < minFontSize then none
    else
      match tryFontSize measure text maxWidth maxHeight (n + 1) with
      | some L => some L
      | none => optimizeGo measure text maxWidth maxHeight minFontSize n

/-- Embedding of `optimizeLayout(ctx, text, maxWidth, maxHeight,
minFontSize, maxFontSize)` (src/script.js:57-79): descend from
`maxFontSize`; on loop exhaustion fall back to `minFontSize` with whatever
lines it wraps to (src/script.js:75-78). -/
def optimizeLayout (measure : ℕ → List Char → ℚ) (text : List Char)
    (maxWidth maxHeight : ℚ) (minFontSize maxFontSize : ℕ) : Layout :=
  match optimizeGo measure text maxWidth maxHeight minFontSize maxFontSize with
  | some L => L
  | none =>
    ⟨minFontSize, wrapText (measure minFontSize) text maxWidth, (minFontSize : ℚ) * 1.2⟩

/-- Embedding of `progress = (i - bufferFrames) / typingFrames`
(src/script.js:151) with `typingFrames = totalFrames - 2 * bufferFrames`
(src/script.js:106), in exact rational arithmetic. -/
def progress (totalFrames bufferFrames i : ℕ) : ℚ :=
  ((i : ℚ) - (bufferFrames : ℚ)) / ((totalFrames : ℚ) - 2 * (bufferFrames : ℚ))

/-- Embedding of `visibleChars = Math.floor(totalChars * progress)`
(src/script.js:152-153). -/
def visibleChars (totalChars totalFrames bufferFrames i : ℕ) : ℤ :=
  ⌊(totalChars : ℚ) * progress totalFrames bufferFrames i⌋

/-- JS `s.slice(0, stop)`: a negative `stop` counts from the end of the
string (clamped at 0), and a `stop` beyond the length is clamped to the
length. -/
def jsSliceTo (s : List Char) (stop : ℤ) : List Char :=
  s.take (if stop < 0 then ((s.length : ℤ) + stop).toNat else stop.toNat)

/-- The `for (let line of lines)` loop of the typing branch
(src/script.js:154-164): append each whole line while
`charCount + line.length <= visibleChars`, otherwise append
`line.slice(0, visibleChars - charCount)` and break. -/
def buildDisplay (visible : ℤ) : List (List Char) → ℤ → List (List Char)
  | [], _ => []
  | line :: rest, charCount =>
    if charCount + (line.length : ℤ) ≤ visible then
      line :: buildDisplay visible rest (charCount + (line.length : ℤ))
    else
      [jsSliceTo line (visible - charCount)]

/-- Embedding of the per-frame `displayLines` computation
(src/script.js:149-167): leading buffer frames show nothing, typing-regime
frames show the partial walk at `visibleChars`, trailing buffer frames show
all lines.  The comparisons are over `ℤ`, as in JS, so that
`totalFrames - bufferFrames` may be negative. -/
def displayLines (text : List Char) (lines : List (List Char))
    (totalFrames bufferFrames i : ℕ) : List (List Char) :=
  if (bufferFrames : ℤ) ≤ (i : ℤ) ∧
      (i : ℤ) < (totalFrames : ℤ) - (bufferFrames : ℤ) then
    buildDisplay (visibleChars text.length totalFrames bufferFrames i) lines 0
  else if (totalFrames : ℤ) - (bufferFrames : ℤ) ≤ (i : ℤ) then
    lines
  else
    []

/-- Modelled from the spec: the typing-regime walk as the spec words it —
"Walk `lines` in order, accumulating a running character count; append each
whole line while the accumulated count plus that line's length ≤
visibleChars; when a line would exceed, append a prefix of that line
(`visibleChars - accumulatedCount` characters) and stop — later lines stay
hidden this frame."  Stated over `ℕ`, for refinement comparison with
`buildDisplay`. -/
def specWalk (visible : ℕ) : List (List Char) → ℕ → List (List Char)
  | [], _ => []
  | line :: rest, acc =>
    if acc + line.length ≤ visible then
      line :: specWalk visible rest (acc + line.length)
    else
      [line.take (visible - acc)]

/-- Modelled from the spec: the LayoutOptimizer contract as the spec words
it — the result is the largest font size in `[minFontSize, maxFontSize]`
whose wrapped layout fits `maxHeight` at line height `fontSize * 1.2`,
together with that size's lines; if no size in the range fits, it is the
`minFontSize` fallback layout.  For refinement comparison with
`optimizeLayout`. -/
def isOptimalLayout (measure : ℕ → List Char → ℚ) (text : List Char)
    (maxWidth maxHeight : ℚ) (minFontSize maxFontSize : ℕ) (L : Layout) : Prop :=
  ((∃ s, minFontSize ≤ s ∧ s ≤ maxFontSize ∧ fitsAt measure text maxWidth maxHeight s) →
    minFontSize ≤ L.fontSize ∧ L.fontSize ≤ maxFontSize ∧
    fitsAt measure text maxWidth maxHeight L.fontSize ∧
    (∀ s, minFontSize ≤ s → s ≤ maxFontSize →
      fitsAt measure text maxWidth maxHeight s → s ≤ L.fontSize) ∧
    L.lines = wrapText (measure L.fontSize) text maxWidth ∧
    L.lineHeight = (L.fontSize : ℚ) * 1.2) ∧
  ((∀ s, minFontSize ≤ s → s ≤ maxFontSize →
      ¬ fitsAt measure text maxWidth maxHeight s) →
    L = ⟨minFontSize, wrapText (measure minFontSize) text maxWidth, (minFontSize : ℚ) * 1.2⟩)

/-- Predicate: `a` is an initial segment of `b`. -/
def initialSegment (a b : List Char) : Prop :=
  b.take a.length = a

/-- The display sequence relates to the layout lines positionally: it is no
longer than `lines`, agrees with `lines` everywhere except possibly its
last element, and its last element is an initial segment of the layout line
at the same position. -/
def prefixStructured (display lines : List (List Char)) : Prop :=
  display.length ≤ lines.length ∧
  ∀ j, j < display.length →
    initialSegment (display.getD j []) (lines.getD j []) ∧
    (j + 1 < display.length → display.getD j [] = lines.getD j [])

/-- A concrete deterministic measurer for witnesses: width proportional to
string length times font size. -/
def lengthMeasure (fontSize : ℕ) (s : List Char) : ℚ :=
  ((s.length * fontSize : ℕ) : ℚ)

/-- A concrete measurer at a fixed font configuration: width equal to the
string length. -/
def charWidth (s : List Char) : ℚ :=
  (s.length : ℚ)

/-- Outcome of the external ffmpeg encoding boundary
(src/script.js:208-249): either the `end` event or the `error` event with
its message. -/
inductive EncodeOutcome where
  | success : EncodeOutcome
  | failed (msg : String) : EncodeOutcome

/-- Effect summary of the promise executor at src/script.js:208-249, as a
function from the encoder outcome and the on-disk temp frame files to
(promise result, temp frame files left on disk).  The `end` handler
(src/script.js:221-243) unlinks every file in the temp directory, removes
the directory and resolves; the `error` handler (src/script.js:244-247)
rejects with the underlying error and performs no file operations. -/
def runEncoding : EncodeOutcome → List String → Except String Unit × List String
  | EncodeOutcome.success, _ => (Except.ok (), [])
  | EncodeOutcome.failed msg, tempFrames => (Except.error msg, tempFrames)

/-! ### Lemmas about splitting and joining -/

theorem splitWords_ne_nil (s : List Char) : splitWords s ≠ [] := by
  cases s with
  | nil => simp [splitWords]
  | cons c cs =>
    simp only [splitWords]
    split
    · simp
    · split <;> simp

theorem joinWords_splitWords (s : List Char) : joinWords (splitWords s) = s := by
  induction s with
  | nil => rfl
  | cons c cs ih =>
    simp only [splitWords]
    cases h : splitWords cs with
    | nil => exact absurd h (splitWords_ne_nil cs)
    | cons w ws =>
      rw [h] at ih
      by_cases hc : c = ' '
      · subst hc
        simp only [if_pos rfl, joinWords, List.flatMap_cons, List.nil_append]
        simpa [joinWords] using ih
      · simp only [if_neg hc, joinWords, List.cons_append]
        simpa [joinWords] using ih

theorem wrapGo_ne_nil (measure : List Char → ℚ) (maxWidth : ℚ) :
    ∀ (ws : List (List Char)) (cur : List Char), wrapGo measure maxWidth cur ws ≠ [] := by
  intro ws
  induction ws with
  | nil => intro cur; simp [wrapGo]
  | cons w rest ih =>
    intro cur
    simp only [wrapGo]
    split
    · exact ih _
    · simp

theorem joinWords_cons (cur : List Char) (L : List (List Char)) (h : L ≠ []) :
    joinWords (cur :: L) = cur ++ ' ' :: joinWords L := by
  cases L with
  | nil => exact absurd rfl h
  | cons l ls => simp [joinWords, List.flatMap_cons]

theorem joinWords_wrapGo (measure : List Char → ℚ) (maxWidth : ℚ) :
    ∀ (ws : List (List Char)) (cur : List Char),
      joinWords (wrapGo measure maxWidth cur ws) =
        cur ++ ws.flatMap (fun x => ' ' :: x) := by
  intro ws
  induction ws with
  | nil => intro cur; simp [wrapGo, joinWords]
  | cons w rest ih =>
    intro cur
    simp only [wrapGo]
    split
    · rw [ih]
      simp [List.flatMap_cons, List.append_assoc]
    · rw [joinWords_cons _ _ (wrapGo_ne_nil measure maxWidth rest w), ih]
      simp [List.flatMap_cons]

/-- C2: for every non-empty text and every maxWidth at least the measured
width of the text's widest single word, joining the lines returned by
`wrapText` with single spaces reconstructs the input text exactly (the
embedding is a pure function, so the input is not mutated). -/
theorem wrapText_roundTrip (measure : List Char → ℚ) (text : List Char) (maxWidth : ℚ)
    (_hne : text ≠ []) (_hw : ∀ w ∈ splitWords text, measure w ≤ maxWidth) :
    joinWords (wrapText measure text maxWidth) = text := by
  unfold wrapText
  cases h : splitWords text with
  | nil => exact absurd h (splitWords_ne_nil text)
  | cons w ws =>
    rw [joinWords_wrapGo]
    have h2 := joinWords_splitWords text
    rw [h] at h2
    simpa [joinWords] using h2

theorem wrapText_roundTrip_witness :
    (("a b".data ≠ ([] : List Char)) ∧ ∀ w ∈ splitWords "a b".data, charWidth w ≤ 5) ∧
    joinWords (wrapText charWidth "a b".data 5) = "a b".data :=
  ⟨⟨by decide, by decide⟩, wrapText_roundTrip charWidth "a b".data 5 (by decide) (by decide)⟩

/-! ### Lemmas about the font-size search -/

theorem tryFontSize_eq_some (measure : ℕ → List Char → ℚ) (text : List Char)
    (maxWidth maxHeight : ℚ) (fontSize : ℕ) (L : Layout)
    (h : tryFontSize measure text maxWidth maxHeight fontSize = some L) :
    fitsAt measure text maxWidth maxHeight fontSize ∧ L.fontSize = fontSize ∧
      L.lines = wrapText (measure fontSize) text maxWidth ∧
      L.lineHeight = (fontSize : ℚ) * 1.2 := by
  unfold tryFontSize at h
  split at h
  next hcond =>
    cases Option.some.inj h
    exact ⟨hcond, rfl, rfl, rfl⟩
  next => cases h

theorem tryFontSize_eq_none (measure : ℕ → List Char → ℚ) (text : List Char)
    (maxWidth maxHeight : ℚ) (fontSize : ℕ)
    (h : tryFontSize measure text maxWidth maxHeight fontSize = none) :
    ¬ fitsAt measure text maxWidth maxHeight fontSize := by
  unfold tryFontSize at h
  split at h
  next => cases h
  next hcond => exact hcond

theorem optimizeGo_eq_none (measure : ℕ → List Char → ℚ) (text : List Char)
    (maxWidth maxHeight : ℚ) (minFontSize : ℕ) :
    ∀ f, optimizeGo measure text maxWidth maxHeight minFontSize f = none →
      ∀ s, minFontSize ≤ s → s ≤ f → ¬ fitsAt measure text maxWidth maxHeight s := by
  intro f
  induction f with
  | zero =>
    intro h s hs1 hs2
    have hs0 : s = 0 := Nat.le_zero.mp hs2
    subst hs0
    simp only [optimizeGo] at h
    split at h
    next => omega
    next => exact tryFontSize_eq_none _ _ _ _ _ h
  | succ n ih =>
    intro h s hs1 hs2
    simp only [optimizeGo] at h
    split at h
    next => omega
    next =>
      cases htry : tryFontSize measure text maxWidth maxHeight (n + 1) with
      | some L => rw [htry] at h; cases h
      | none =>
        rw [htry] at h
        rcases Nat.eq_or_lt_of_le hs2 with rfl | hlt2
        · exact tryFontSize_eq_none _ _ _ _ _ htry
        · exact ih h s hs1 (by omega)

theorem optimizeGo_eq_none_of (measure : ℕ → List Char → ℚ) (text : List Char)
    (maxWidth maxHeight : ℚ) (minFontSize : ℕ) :
    ∀ f, (∀ s, minFontSize ≤ s → s ≤ f → ¬ fitsAt measure text maxWidth maxHeight s) →
      optimizeGo measure text maxWidth maxHeight minFontSize f = none := by
  intro f
  induction f with
  | zero =>
    intro hall
    simp only [optimizeGo]
    split
    · rfl
    next hnlt =>
      cases htry : tryFontSize measure text maxWidth maxHeight 0 with
      | none => rfl
      | some L =>
        exact absurd (tryFontSize_eq_some _ _ _ _ _ _ htry).1 (hall 0 (by omega) le_rfl)
  | succ n ih =>
    intro hall
    simp only [optimizeGo]
    split
    · rfl
    next hge =>
      cases htry : tryFontSize measure text maxWidth maxHeight (n + 1) with
      | some L =>
        exact absurd (tryFontSize_eq_some _ _ _ _ _ _ htry).1
          (hall (n + 1) (by omega) le_rfl)
      | none =>
        exact ih (fun s h1 h2 => hall s h1 (by omega))

theorem optimizeGo_eq_some (measure : ℕ → List Char → ℚ) (text : List Char)
    (maxWidth maxHeight : ℚ) (minFontSize : ℕ) :
    ∀ f L, optimizeGo measure text maxWidth maxHeight minFontSize f = some L →
      minFontSize ≤ L.fontSize ∧ L.fontSize ≤ f ∧
      fitsAt measure text maxWidth maxHeight L.fontSize ∧
      (∀ s, L.fontSize < s → s ≤ f → ¬ fitsAt measure text maxWidth maxHeight s) ∧
      L.lines = wrapText (measure L.fontSize) text maxWidth ∧
      L.lineHeight = (L.fontSize : ℚ) * 1.2 := by
  intro f
  induction f with
  | zero =>
    intro L h
    simp only [optimizeGo] at h
    split at h
    next => cases h
    next hnlt =>
      obtain ⟨hfit, hfs, hlines, hlh⟩ := tryFontSize_eq_some _ _ _ _ _ _ h
      rw [hfs]
      exact ⟨by omega, le_rfl, hfit, fun s hs1 hs2 => by omega, hlines, hlh⟩
  | succ n ih =>
    intro L h
    simp only [optimizeGo] at h
    split at h
    next => cases h
    next hge =>
      cases htry : tryFontSize measure text maxWidth maxHeight (n + 1) with
      | some L' =>
        rw [htry] at h
        cases Option.some.inj h
        obtain ⟨hfit, hfs, hlines, hlh⟩ := tryFontSize_eq_some _ _ _ _ _ _ htry
        rw [hfs]
        exact ⟨by omega, le_rfl, hfit, fun s hs1 hs2 => by omega, hlines, hlh⟩
      | none =>
        rw [htry] at h
        obtain ⟨h1, h2, h3, h4, h5, h6⟩ := ih L h
        refine ⟨h1, by omega, h3, ?_, h5, h6⟩
        intro s hs1 hs2
        rcases Nat.eq_or_lt_of_le hs2 with rfl | hlt
        · exact tryFontSize_eq_none _ _ _ _ _ htry
        · exact h4 s hs1 (by omega)

/-- C3: the layout optimizer returns the largest font size in
`[minFontSize, maxFontSize]` whose wrapped lines fit `maxHeight` at line
height `fontSize * 1.2`, with the lines wrapped at that size; if no size in
the range fits, it returns the `minFontSize` fallback layout (whose height
may exceed `maxHeight`). -/
theorem optimizeLayout_correct (measure : ℕ → List Char → ℚ) (text : List Char)
    (maxWidth maxHeight : ℚ) (minFontSize maxFontSize : ℕ)
    (_hrange : minFontSize ≤ maxFontSize) :
    isOptimalLayout measure text maxWidth maxHeight minFontSize maxFontSize
      (optimizeLayout measure text maxWidth maxHeight minFontSize maxFontSize) := by
  unfold optimizeLayout
  cases hgo : optimizeGo measure text maxWidth maxHeight minFontSize maxFontSize with
  | some L =>
    show isOptimalLayout measure text maxWidth maxHeight minFontSize maxFontSize L
    obtain ⟨h1, h2, h3, h4, h5, h6⟩ := optimizeGo_eq_some _ _ _ _ _ _ L hgo
    constructor
    · intro _
      refine ⟨h1, h2, h3, ?_, h5, h6⟩
      intro s hs1 hs2 hfit
      by_contra hlt
      exact h4 s (by omega) hs2 hfit
    · intro hnone
      exact absurd h3 (hnone L.fontSize h1 h2)
  | none =>
    show isOptimalLayout measure text maxWidth maxHeight minFontSize maxFontSize
      ⟨minFontSize, wrapText (measure minFontSize) text maxWidth, (minFontSize : ℚ) * 1.2⟩
    have hall := optimizeGo_eq_none _ _ _ _ _ maxFontSize hgo
    constructor
    · rintro ⟨s, hs1, hs2, hfit⟩
      exact absurd hfit (hall s hs1 hs2)
    · intro _
      rfl

theorem optimizeLayout_correct_witness :
    1 ≤ 2 ∧ isOptimalLayout lengthMeasure ("a b".data) 10 3 1 2
      (optimizeLayout lengthMeasure ("a b".data) 10 3 1 2) :=
  ⟨by decide, optimizeLayout_correct lengthMeasure ("a b".data) 10 3 1 2 (by decide)⟩

theorem optimizeLayout_fontSize_le (measure : ℕ → List Char → ℚ) (text : List Char)
    (maxWidth maxHeight : ℚ) (minFontSize maxFontSize : ℕ)
    (hrange : minFontSize ≤ maxFontSize) :
    minFontSize ≤ (optimizeLayout measure text maxWidth maxHeight minFontSize maxFontSize).fontSize ∧
      (optimizeLayout measure text maxWidth maxHeight minFontSize maxFontSize).fontSize ≤ maxFontSize := by
  unfold optimizeLayout
  cases hgo : optimizeGo measure text maxWidth maxHeight minFontSize maxFontSize with
  | some L =>
    obtain ⟨h1, h2, _, _, _, _⟩ := optimizeGo_eq_some _ _ _ _ _ _ L hgo
    exact ⟨h1, h2⟩
  | none => exact ⟨le_rfl, hrange⟩

/-- C8: with a shrinking height bound the chosen font size never grows, and
both chosen sizes stay inside `[minFontSize, maxFontSize]`. -/
theorem optimizeLayout_monotone_height (measure : ℕ → List Char → ℚ) (text : List Char)
    (maxWidth mH1 mH2 : ℚ) (minFontSize maxFontSize : ℕ)
    (hrange : minFontSize ≤ maxFontSize) (hH : mH2 ≤ mH1) :
    (optimizeLayout measure text maxWidth mH2 minFontSize maxFontSize).fontSize ≤
      (optimizeLayout measure text maxWidth mH1 minFontSize maxFontSize).fontSize ∧
    minFontSize ≤ (optimizeLayout measure text maxWidth mH2 minFontSize maxFontSize).fontSize ∧
    (optimizeLayout measure text maxWidth mH2 minFontSize maxFontSize).fontSize ≤ maxFontSize ∧
    minFontSize ≤ (optimizeLayout measure text maxWidth mH1 minFontSize maxFontSize).fontSize ∧
    (optimizeLayout measure text maxWidth mH1 minFontSize maxFontSize).fontSize ≤ maxFontSize := by
  obtain ⟨hb2a, hb2b⟩ :=
    optimizeLayout_fontSize_le measure text maxWidth mH2 minFontSize maxFontSize hrange
  obtain ⟨hb1a, hb1b⟩ :=
    optimizeLayout_fontSize_le measure text maxWidth mH1 minFontSize maxFontSize hrange
  refine ⟨?_, hb2a, hb2b, hb1a, hb1b⟩
  unfold optimizeLayout
  cases hgo2 : optimizeGo measure text maxWidth mH2 minFontSize maxFontSize with
  | none => exact le_trans (by exact le_rfl) hb1a
  | some L2 =>
    obtain ⟨h21, h22, h23, _, _, _⟩ := optimizeGo_eq_some _ _ _ _ _ _ L2 hgo2
    have hfit1 : fitsAt measure text maxWidth mH1 L2.fontSize := le_trans h23 hH
    cases hgo1 : optimizeGo measure text maxWidth mH1 minFontSize maxFontSize with
    | none =>
      exact absurd hfit1 (optimizeGo_eq_none _ _ _ _ _ _ hgo1 L2.fontSize h21 h22)
    | some L1 =>
      obtain ⟨h11, h12, h13, h14, _, _⟩ := optimizeGo_eq_some _ _ _ _ _ _ L1 hgo1
      by_contra hlt
      push_neg at hlt
      exact h14 L2.fontSize (by omega) h22 hfit1

theorem optimizeLayout_monotone_height_witness :
    (1 ≤ 2 ∧ (2 : ℚ) ≤ 3) ∧
    ((optimizeLayout lengthMeasure ("a".data) 10 2 1 2).fontSize ≤
      (optimizeLayout lengthMeasure ("a".data) 10 3 1 2).fontSize ∧
    1 ≤ (optimizeLayout lengthMeasure ("a".data) 10 2 1 2).fontSize ∧
    (optimizeLayout lengthMeasure ("a".data) 10 2 1 2).fontSize ≤ 2 ∧
    1 ≤ (optimizeLayout lengthMeasure ("a".data) 10 3 1 2).fontSize ∧
    (optimizeLayout lengthMeasure ("a".data) 10 3 1 2).fontSize ≤ 2) :=
  ⟨⟨by decide, by decide⟩,
    optimizeLayout_monotone_height lengthMeasure ("a".data) 10 3 2 1 2
      (by decide) (by decide)⟩

/-! ### Line-width facts -/

theorem splitWords_no_space (s : List Char) : ∀ w ∈ splitWords s, ' ' ∉ w := by
  induction s with
  | nil =>
    intro w hw
    simp only [splitWords, List.mem_singleton] at hw
    subst hw
    simp
  | cons c cs ih =>
    intro w hw
    simp only [splitWords] at hw
    cases h : splitWords cs with
    | nil => exact absurd h (splitWords_ne_nil cs)
    | cons v vs =>
      rw [h] at hw
      rw [h] at ih
      by_cases hc : c = ' '
      · subst hc
        simp only [if_pos rfl] at hw
        rcases List.mem_cons.mp hw with rfl | hw2
        · simp
        · exact ih w hw2
      · simp only [if_neg hc] at hw
        rcases List.mem_cons.mp hw with rfl | hw2
        · intro hsp
          rcases List.mem_cons.mp hsp with h1 | h2
          · exact hc h1.symm
          · exact ih v (List.mem_cons_self v vs) h2
        · exact ih w (List.mem_cons_of_mem v hw2)

theorem wrapGo_space_width (measure : List Char → ℚ) (maxWidth : ℚ) :
    ∀ (ws : List (List Char)) (cur : List Char),
      (' ' ∈ cur → measure cur < maxWidth) →
      (∀ w ∈ ws, ' ' ∉ w) →
      ∀ line ∈ wrapGo measure maxWidth cur ws, ' ' ∈ line → measure line < maxWidth := by
  intro ws
  induction ws with
  | nil =>
    intro cur hcur _ line hline hsp
    simp only [wrapGo, List.mem_singleton] at hline
    subst hline
    exact hcur hsp
  | cons w rest ih =>
    intro cur hcur hws line hline hsp
    simp only [wrapGo] at hline
    split at hline
    next hfit =>
      exact ih (cur ++ ' ' :: w) (fun _ => hfit)
        (fun w' hw' => hws w' (List.mem_cons_of_mem w hw')) line hline hsp
    next hfit =>
      rcases List.mem_cons.mp hline with rfl | hline2
      · exact hcur hsp
      · exact ih w (fun hspw => absurd hspw (hws w (List.mem_cons_self w rest)))
          (fun w' hw' => hws w' (List.mem_cons_of_mem w hw')) line hline2 hsp

theorem wrapText_space_width (measure : List Char → ℚ) (text : List Char) (maxWidth : ℚ) :
    ∀ line ∈ wrapText measure text maxWidth, ' ' ∈ line → measure line < maxWidth := by
  intro line hline hsp
  unfold wrapText at hline
  cases h : splitWords text with
  | nil => exact absurd h (splitWords_ne_nil text)
  | cons w ws =>
    rw [h] at hline
    have hnos := splitWords_no_space text
    rw [h] at hnos
    exact wrapGo_space_width measure maxWidth ws w
      (fun hspw => absurd hspw (hnos w (List.mem_cons_self w ws)))
      (fun w' hw' => hnos w' (List.mem_cons_of_mem w hw')) line hline hsp

theorem optimizeLayout_lines_eq (measure : ℕ → List Char → ℚ) (text : List Char)
    (maxWidth maxHeight : ℚ) (minFontSize maxFontSize : ℕ) :
    (optimizeLayout measure text maxWidth maxHeight minFontSize maxFontSize).lines =
      wrapText
        (measure (optimizeLayout measure text maxWidth maxHeight minFontSize maxFontSize).fontSize)
        text maxWidth := by
  unfold optimizeLayout
  cases hgo : optimizeGo measure text maxWidth maxHeight minFontSize maxFontSize with
  | some L =>
    obtain ⟨_, _, _, _, h5, _⟩ := optimizeGo_eq_some _ _ _ _ _ _ L hgo
    exact h5
  | none => rfl

theorem optimizeLayout_ab_value :
    optimizeLayout lengthMeasure ['a', 'b'] 30 1000 12 20 = ⟨20, [['a', 'b']], 24⟩ := by
  have hw : wrapText (lengthMeasure 20) ['a', 'b'] 30 = [['a', 'b']] := by decide
  norm_num [optimizeLayout, optimizeGo, tryFontSize, hw]

/-- C5 counterexample: with a width-proportional measurer, the text "ab"
(one word wider than `maxWidth = 30` at every size) and a generous height
bound, the optimizer picks font size 20 — not the clamped minimum 12 — yet
the single layout line measures 40 > 30. -/
theorem line_width_bound_counterexample :
    (optimizeLayout lengthMeasure ['a', 'b'] 30 1000 12 20).fontSize ≠ 12 ∧
    ¬ (∀ line ∈ (optimizeLayout lengthMeasure ['a', 'b'] 30 1000 12 20).lines,
        lengthMeasure (optimizeLayout lengthMeasure ['a', 'b'] 30 1000 12 20).fontSize line
          ≤ 30) := by
  rw [optimizeLayout_ab_value]
  constructor
  · decide
  · norm_num [lengthMeasure]

/-- C5 (amended): every layout line that contains a space — i.e. was formed
by joining at least two words — has measured width strictly below
`maxWidth` at the chosen font size; a line consisting of a single word may
exceed `maxWidth`, and can do so at any chosen font size, not only when the
optimizer is clamped at `minFontSize`. -/
theorem multiword_line_width_lt (measure : ℕ → List Char → ℚ) (text : List Char)
    (maxWidth maxHeight : ℚ) (minFontSize maxFontSize : ℕ) :
    ∀ line ∈ (optimizeLayout measure text maxWidth maxHeight minFontSize maxFontSize).lines,
      ' ' ∈ line →
      measure (optimizeLayout measure text maxWidth maxHeight minFontSize maxFontSize).fontSize
        line < maxWidth := by
  intro line hline hsp
  rw [optimizeLayout_lines_eq] at hline
  exact wrapText_space_width _ text maxWidth line hline hsp

theorem optimizeLayout_a_space_b_value :
    optimizeLayout lengthMeasure ['a', ' ', 'b'] 10 3 1 2 =
      ⟨2, [['a', ' ', 'b']], 12 / 5⟩ := by
  have hw : wrapText (lengthMeasure 2) ['a', ' ', 'b'] 10 = [['a', ' ', 'b']] := by decide
  norm_num [optimizeLayout, optimizeGo, tryFontSize, hw]

theorem multiword_line_width_lt_witness :
    (['a', ' ', 'b'] ∈ (optimizeLayout lengthMeasure ['a', ' ', 'b'] 10 3 1 2).lines ∧
      ' ' ∈ ['a', ' ', 'b']) ∧
    lengthMeasure (optimizeLayout lengthMeasure ['a', ' ', 'b'] 10 3 1 2).fontSize
      ['a', ' ', 'b'] < 10 := by
  refine ⟨⟨?_, by decide⟩, ?_⟩
  · rw [optimizeLayout_a_space_b_value]
    decide
  · exact multiword_line_width_lt lengthMeasure ['a', ' ', 'b'] 10 3 1 2 ['a', ' ', 'b']
      (by rw [optimizeLayout_a_space_b_value]; decide) (by decide)

/-! ### The typing regime -/

theorem intFloor_natCast_div (m n : ℕ) :
    ⌊((m : ℚ)) / ((n : ℚ))⌋ = ((m / n : ℕ) : ℤ) := by
  have h := Rat.floor_intCast_div_natCast (m : ℤ) n
  rw [Int.cast_natCast] at h
  rw [h]
  exact (Int.ofNat_ediv m n).symm

theorem visibleChars_eq_natDiv (totalChars totalFrames bufferFrames i : ℕ)
    (hb : bufferFrames ≤ i) (h2b : 2 * bufferFrames < totalFrames) :
    visibleChars totalChars totalFrames bufferFrames i =
      ((totalChars * (i - bufferFrames) / (totalFrames - 2 * bufferFrames) : ℕ) : ℤ) := by
  unfold visibleChars progress
  have e1 : (totalChars : ℚ) *
        (((i : ℚ) - (bufferFrames : ℚ)) / ((totalFrames : ℚ) - 2 * (bufferFrames : ℚ)))
      = ((totalChars * (i - bufferFrames) : ℕ) : ℚ) /
        (((totalFrames - 2 * bufferFrames : ℕ)) : ℚ) := by
    push_cast [Nat.cast_sub hb, Nat.cast_sub (show 2 * bufferFrames ≤ totalFrames by omega)]
    ring
  rw [e1, intFloor_natCast_div]

theorem buildDisplay_eq_specWalk (v : ℕ) :
    ∀ (ls : List (List Char)) (acc : ℕ), acc ≤ v →
      buildDisplay (v : ℤ) ls (acc : ℤ) = specWalk v ls acc := by
  intro ls
  induction ls with
  | nil => intro acc _; rfl
  | cons l rest ih =>
    intro acc hacc
    simp only [buildDisplay, specWalk]
    by_cases h : acc + l.length ≤ v
    · rw [if_pos (show (acc : ℤ) + (l.length : ℤ) ≤ (v : ℤ) by exact_mod_cast h), if_pos h]
      rw [show ((acc : ℤ) + (l.length : ℤ)) = ((acc + l.length : ℕ) : ℤ) by push_cast; ring]
      exact congrArg (List.cons l) (ih (acc + l.length) h)
    · rw [if_neg (show ¬ ((acc : ℤ) + (l.length : ℤ) ≤ (v : ℤ)) by exact_mod_cast h),
        if_neg h]
      unfold jsSliceTo
      rw [if_neg (show ¬ ((v : ℤ) - (acc : ℤ) < 0) by omega)]
      rw [show ((v : ℤ) - (acc : ℤ)).toNat = v - acc by omega]

theorem displayLines_typing (text : List Char) (lines : List (List Char))
    (totalFrames bufferFrames i : ℕ) (hb : bufferFrames ≤ i)
    (hi : i + bufferFrames < totalFrames) :
    displayLines text lines totalFrames bufferFrames i =
      specWalk (text.length * (i - bufferFrames) / (totalFrames - 2 * bufferFrames))
        lines 0 := by
  have h2b : 2 * bufferFrames < totalFrames := by omega
  have hcond : (bufferFrames : ℤ) ≤ (i : ℤ) ∧
      (i : ℤ) < (totalFrames : ℤ) - (bufferFrames : ℤ) := ⟨by omega, by omega⟩
  unfold displayLines
  rw [if_pos hcond, visibleChars_eq_natDiv text.length totalFrames bufferFrames i hb h2b]
  have h0 := buildDisplay_eq_specWalk
    (text.length * (i - bufferFrames) / (totalFrames - 2 * bufferFrames)) lines 0
    (Nat.zero_le _)
  simpa using h0

/-- C1: in the typing regime the visible character count is
`floor(len(fullText) * (i - bufferFrames) / typingFrames)` and the display
is obtained by walking the layout lines in order, appending whole lines
while they fit within the visible count, then the fitting prefix of the
first line that would exceed, hiding all later lines. -/
theorem typing_regime_display_spec (text : List Char) (lines : List (List Char))
    (totalFrames bufferFrames i : ℕ) (hb : bufferFrames ≤ i)
    (hi : i + bufferFrames < totalFrames) :
    visibleChars text.length totalFrames bufferFrames i =
      ((text.length * (i - bufferFrames) / (totalFrames - 2 * bufferFrames) : ℕ) : ℤ) ∧
    displayLines text lines totalFrames bufferFrames i =
      specWalk (text.length * (i - bufferFrames) / (totalFrames - 2 * bufferFrames))
        lines 0 :=
  ⟨visibleChars_eq_natDiv _ _ _ _ hb (by omega),
    displayLines_typing _ _ _ _ _ hb hi⟩

theorem typing_regime_display_spec_witness :
    (1 ≤ 5 ∧ 5 + 1 < 10) ∧
    (visibleChars (['A', 'B', ' ', 'C', 'D'] : List Char).length 10 1 5 =
        (((['A', 'B', ' ', 'C', 'D'] : List Char).length * (5 - 1) / (10 - 2 * 1) : ℕ) : ℤ) ∧
      displayLines ['A', 'B', ' ', 'C', 'D'] [['A', 'B'], ['C', 'D']] 10 1 5 =
        specWalk ((['A', 'B', ' ', 'C', 'D'] : List Char).length * (5 - 1) / (10 - 2 * 1))
          [['A', 'B'], ['C', 'D']] 0) :=
  ⟨⟨by decide, by decide⟩,
    typing_regime_display_spec ['A', 'B', ' ', 'C', 'D'] [['A', 'B'], ['C', 'D']] 10 1 5
      (by decide) (by decide)⟩

/-- C4: within the typing regime the visible character count is
non-decreasing from one frame to the next. -/
theorem visibleChars_monotone (totalChars totalFrames bufferFrames i : ℕ)
    (hb : bufferFrames ≤ i) (hi : i + 1 + bufferFrames < totalFrames) :
    visibleChars totalChars totalFrames bufferFrames i ≤
      visibleChars totalChars totalFrames bufferFrames (i + 1) := by
  unfold visibleChars progress
  apply Int.floor_le_floor
  have ht : (0 : ℚ) < (totalFrames : ℚ) - 2 * (bufferFrames : ℚ) := by
    have h2b : 2 * bufferFrames < totalFrames := by omega
    have h2b' : ((2 * bufferFrames : ℕ) : ℚ) < ((totalFrames : ℕ) : ℚ) := by
      exact_mod_cast h2b
    push_cast at h2b'
    linarith
  have hnum : ((i : ℚ) - (bufferFrames : ℚ)) ≤ (((i + 1 : ℕ) : ℚ) - (bufferFrames : ℚ)) := by
    push_cast
    linarith
  gcongr

theorem visibleChars_monotone_witness :
    (0 ≤ 4 ∧ 4 + 1 + 0 < 10) ∧
    visibleChars 5 10 0 4 ≤ visibleChars 5 10 0 5 :=
  ⟨⟨by decide, by decide⟩, visibleChars_monotone 5 10 0 4 (by decide) (by decide)⟩

/-! ### Scenario A (C6) -/

/-- C6 counterexample: at frame 0 of Scenario A the display sequence is not
empty — it is the one-element sequence containing the empty line, produced
by `line.slice(0, 0)` on the first layout line. -/
theorem scenarioA_display_not_nil :
    displayLines ['A', 'B', ' ', 'C', 'D'] [['A', 'B', ' ', 'C', 'D']] 10 0 0 = [[]] ∧
    ([[]] : List (List Char)) ≠ [] := by
  refine ⟨?_, by decide⟩
  rw [displayLines_typing _ _ _ _ _ (by decide) (by decide)]
  decide

/-- C6 (amended): in Scenario A (`text = "AB CD"`, one layout line,
`totalFrames = 10`, `bufferFrames = 0`), at frame 0 the progress is 0, the
visible count is 0 and the display is a single empty line; at frame 4 the
progress is 2/5, the visible count is 2 and the display is the single line
"AB". -/
theorem scenarioA_values :
    progress 10 0 0 = 0 ∧
    visibleChars 5 10 0 0 = 0 ∧
    displayLines ['A', 'B', ' ', 'C', 'D'] [['A', 'B', ' ', 'C', 'D']] 10 0 0 = [[]] ∧
    progress 10 0 4 = 2 / 5 ∧
    visibleChars 5 10 0 4 = 2 ∧
    displayLines ['A', 'B', ' ', 'C', 'D'] [['A', 'B', ' ', 'C', 'D']] 10 0 4 =
      [['A', 'B']] := by
  refine ⟨?_, ?_, ?_, ?_, ?_, ?_⟩
  · norm_num [progress]
  · rw [visibleChars_eq_natDiv 5 10 0 0 (by decide) (by decide)]
    decide
  · rw [displayLines_typing _ _ _ _ _ (by decide) (by decide)]
    decide
  · norm_num [progress]
  · rw [visibleChars_eq_natDiv 5 10 0 4 (by decide) (by decide)]
    decide
  · rw [displayLines_typing _ _ _ _ _ (by decide) (by decide)]
    decide

/-! ### Degenerate buffers (C7) -/

/-- C7 counterexample: with `totalFrames = 10` and `bufferFrames = 5`
(`typingFrames = 0`), frame 0 shows nothing rather than the fully typed
text. -/
theorem bufferConsumesAll_not_fully_typed :
    10 ≤ 2 * 5 ∧
    displayLines ['a'] [['a']] 10 5 0 = [] ∧
    ([] : List (List Char)) ≠ [['a']] := by
  refine ⟨by decide, by decide, by decide⟩

/-- C7 (amended): when `typingFrames = totalFrames - 2*bufferFrames ≤ 0`
the typing branch — the only place that divides by `typingFrames` — is
never taken, so no division by `typingFrames` occurs; but frames are not
all fully typed: frames with `i ≥ totalFrames - bufferFrames` show all
lines while earlier frames show nothing. -/
theorem bufferConsumesAll_behavior (text : List Char) (lines : List (List Char))
    (totalFrames bufferFrames i : ℕ) (h : totalFrames ≤ 2 * bufferFrames) :
    ¬ ((bufferFrames : ℤ) ≤ (i : ℤ) ∧
        (i : ℤ) < (totalFrames : ℤ) - (bufferFrames : ℤ)) ∧
    displayLines text lines totalFrames bufferFrames i =
      if (totalFrames : ℤ) - (bufferFrames : ℤ) ≤ (i : ℤ) then lines else [] := by
  have hn : ¬ ((bufferFrames : ℤ) ≤ (i : ℤ) ∧
      (i : ℤ) < (totalFrames : ℤ) - (bufferFrames : ℤ)) := by
    rintro ⟨h1, h2⟩
    omega
  refine ⟨hn, ?_⟩
  unfold displayLines
  rw [if_neg hn]

theorem bufferConsumesAll_behavior_witness :
    10 ≤ 2 * 5 ∧
    (¬ (((5 : ℕ) : ℤ) ≤ ((0 : ℕ) : ℤ) ∧
        ((0 : ℕ) : ℤ) < ((10 : ℕ) : ℤ) - ((5 : ℕ) : ℤ)) ∧
      displayLines ['a'] [['a']] 10 5 0 =
        if ((10 : ℕ) : ℤ) - ((5 : ℕ) : ℤ) ≤ ((0 : ℕ) : ℤ) then [['a']] else []) :=
  ⟨by decide, bufferConsumesAll_behavior ['a'] [['a']] 10 5 0 (by decide)⟩

/-! ### Display structure (C10) -/

theorem initialSegment_take (l : List Char) (k : ℕ) : initialSegment (l.take k) l := by
  unfold initialSegment
  rw [List.length_take, ← List.take_take, List.take_length]

theorem prefixStructured_nil (lines : List (List Char)) : prefixStructured [] lines := by
  refine ⟨Nat.zero_le _, ?_⟩
  intro j hj
  simp at hj

theorem prefixStructured_cons (l : List Char) (d rest : List (List Char))
    (h : prefixStructured d rest) : prefixStructured (l :: d) (l :: rest) := by
  obtain ⟨hlen, hidx⟩ := h
  refine ⟨by simpa using hlen, ?_⟩
  intro j hj
  cases j with
  | zero =>
    refine ⟨?_, fun _ => rfl⟩
    simp only [List.getD_cons_zero]
    unfold initialSegment
    exact List.take_length l
  | succ k =>
    have hk : k < d.length := by simpa using hj
    obtain ⟨h1, h2⟩ := hidx k hk
    refine ⟨by simpa using h1, ?_⟩
    intro h3
    simp only [List.getD_cons_succ]
    exact h2 (by simpa using h3)

theorem prefixStructured_single (a l : List Char) (rest : List (List Char))
    (h : initialSegment a l) : prefixStructured [a] (l :: rest) := by
  refine ⟨by simp, ?_⟩
  intro j hj
  have hj0 : j = 0 := Nat.lt_one_iff.mp (by simpa using hj)
  subst hj0
  refine ⟨by simpa using h, ?_⟩
  intro h2
  simp at h2

theorem prefixStructured_refl (lines : List (List Char)) : prefixStructured lines lines := by
  induction lines with
  | nil => exact prefixStructured_nil []
  | cons l rest ih => exact prefixStructured_cons l rest rest ih

theorem prefixStructured_buildDisplay (v : ℤ) :
    ∀ (ls : List (List Char)) (acc : ℤ), prefixStructured (buildDisplay v ls acc) ls := by
  intro ls
  induction ls with
  | nil => intro acc; exact prefixStructured_nil []
  | cons l rest ih =>
    intro acc
    simp only [buildDisplay]
    split
    · exact prefixStructured_cons _ _ _ (ih _)
    · exact prefixStructured_single _ _ _ (by unfold jsSliceTo; exact initialSegment_take l _)

theorem buildDisplay_ne_nil (v : ℤ) (l : List Char) (rest : List (List Char)) (acc : ℤ) :
    buildDisplay v (l :: rest) acc ≠ [] := by
  simp only [buildDisplay]
  split <;> simp

theorem buildDisplay_zero_all_nil :
    ∀ (ls : List (List Char)), ∀ l ∈ buildDisplay 0 ls 0, l = [] := by
  intro ls
  induction ls with
  | nil => intro l hl; simp [buildDisplay] at hl
  | cons x rest ih =>
    intro l hl
    simp only [buildDisplay] at hl
    by_cases h : (0 : ℤ) + (x.length : ℤ) ≤ 0
    · rw [if_pos h] at hl
      have hx : x.length = 0 := by omega
      have hx2 : x = [] := List.length_eq_zero.mp hx
      rcases List.mem_cons.mp hl with rfl | hl2
      · exact hx2
      · apply ih
        rw [show ((0 : ℤ) + (x.length : ℤ)) = 0 by omega] at hl2
        exact hl2
    · rw [if_neg h] at hl
      have hl3 : l = jsSliceTo x (0 - 0) := by simpa using hl
      subst hl3
      unfold jsSliceTo
      rw [if_neg (show ¬ ((0 : ℤ) - 0 < 0) by omega)]
      rw [show ((0 : ℤ) - 0).toNat = 0 by omega]
      exact List.take_zero x

/-- C10 counterexample: a layout whose first line is empty (here produced
by `wrapText` on " x" with a too-small width) gives, at visible count 0, a
display of two empty lines — not exactly one element. -/
theorem displayLines_two_empty_lines :
    wrapText charWidth [' ', 'x'] 1 = [[], ['x']] ∧
    displayLines [' ', 'x'] [[], ['x']] 2 0 0 = [[], []] ∧
    ([[], []] : List (List Char)).length ≠ 1 := by
  refine ⟨by decide, ?_, by decide⟩
  rw [displayLines_typing _ _ _ _ _ (by decide) (by decide)]
  decide

/-- C10 (amended): in every regime the display is prefix-structured over
the layout lines (no longer than them, equal except possibly at the last
element, last element an initial segment of its layout line); in the typing
regime it is never empty, and when the visible count is 0 every element of
it is the empty string (exactly one only when the first layout line is
non-empty). -/
theorem displayLines_structure (text : List Char) (lines : List (List Char))
    (totalFrames bufferFrames i : ℕ) (hne : lines ≠ []) :
    prefixStructured (displayLines text lines totalFrames bufferFrames i) lines ∧
    ((bufferFrames ≤ i ∧ i + bufferFrames < totalFrames) →
      displayLines text lines totalFrames bufferFrames i ≠ []) ∧
    ((bufferFrames ≤ i ∧ i + bufferFrames < totalFrames) →
      visibleChars text.length totalFrames bufferFrames i = 0 →
      ∀ l ∈ displayLines text lines totalFrames bufferFrames i, l = []) := by
  unfold displayLines
  split
  next hcond =>
    refine ⟨prefixStructured_buildDisplay _ lines 0, ?_, ?_⟩
    · intro _
      cases lines with
      | nil => exact absurd rfl hne
      | cons l rest => exact buildDisplay_ne_nil _ l rest 0
    · intro _ hv
      rw [hv]
      exact buildDisplay_zero_all_nil lines
  next hcond =>
    split
    next =>
      refine ⟨prefixStructured_refl lines, ?_, ?_⟩
      · rintro ⟨h1, h2⟩
        exact absurd ⟨by omega, by omega⟩ hcond
      · rintro ⟨h1, h2⟩
        exact absurd ⟨by omega, by omega⟩ hcond
    next =>
      refine ⟨prefixStructured_nil lines, ?_, ?_⟩
      · rintro ⟨h1, h2⟩
        exact absurd ⟨by omega, by omega⟩ hcond
      · rintro ⟨h1, h2⟩
        exact absurd ⟨by omega, by omega⟩ hcond

theorem displayLines_structure_witness :
    ([['a']] ≠ ([] : List (List Char))) ∧
    (prefixStructured (displayLines ['a'] [['a']] 2 0 0) [['a']] ∧
      ((0 ≤ 0 ∧ 0 + 0 < 2) → displayLines ['a'] [['a']] 2 0 0 ≠ []) ∧
      ((0 ≤ 0 ∧ 0 + 0 < 2) → visibleChars (['a'] : List Char).length 2 0 0 = 0 →
        ∀ l ∈ displayLines ['a'] [['a']] 2 0 0, l = [])) :=
  ⟨by decide, displayLines_structure ['a'] [['a']] 2 0 0 (by decide)⟩

/-! ### The encoding boundary (C9) -/

/-- C9 counterexample: on an encoder error the rejection carries the
message, but the temporary frame files are left on disk — cleanup does not
run on the error path. -/
theorem encoding_error_leaves_frames :
    runEncoding (EncodeOutcome.failed "boom") ["frame_00000.png"] =
      (Except.error "boom", ["frame_00000.png"]) ∧
    (["frame_00000.png"] : List String) ≠ [] :=
  ⟨rfl, by decide⟩

/-- C9 (amended): an encoder failure is surfaced to the caller with the
underlying message, but the temporary per-frame images are removed only on
the success path; on the error path they remain on disk. -/
theorem runEncoding_paths (msg : String) (frames : List String) :
    runEncoding (EncodeOutcome.failed msg) frames = (Except.error msg, frames) ∧
    runEncoding EncodeOutcome.success frames = (Except.ok (), []) :=
  ⟨rfl, rfl⟩

end TypeTrance
